import Mathlib

/-!
Verification of the ASCII chart rendering engine of the `ccusage` repository.

The TypeScript sources are shallowly embedded as follows:

* JS `number` values carried by the data series become `ℚ` (the engine only
  performs field arithmetic, `Math.round`, `Math.floor`, `Math.ceil`,
  `Math.min`/`Math.max` on them; the tiny floating-point error of e.g. the
  literal `0.8` never crosses a rounding boundary at the integer ranges the
  engine touches, so rational arithmetic is the faithful idealisation);
* canvas coordinates, which are always produced by `Math.round`/`Math.floor`,
  become `ℤ`;
* the canvas (`string[][]`, `height+1` rows by `width` columns, initialised to
  a space) becomes a total function `ℤ → ℤ → Char` initialised to `' '`;
  a JS assignment `canvas[y][x] = ch` becomes a pointwise function update.
  Reads of `canvas[y]` guarded by `!= null` in the source become the explicit
  bound check `0 ≤ y ∧ y ≤ height`, since a JS array of length `height+1`
  yields `undefined` exactly outside `[0, height]`;
* `while (true)` loops (Bresenham) become fuel-indexed recursion returning
  `Option`, with `none` meaning the fuel ran out; the termination claim is
  then the statement that the canonical fuel always yields `some`;
* JS `Map<number, string>` becomes an association list in insertion order,
  with `set` overwriting in place, exactly as `Map.prototype.set` does.

The embedded functions keep the names of the source functions
(`drawLineGraph`, `drawLine`, `createLineGraph`, `createBarGraph`, …).
`data` never contains `null` entries here: the series handed to the engine is
`number[]`, so the `value == null` branches of the source are unreachable and
are dropped from the embedding.
-/

namespace CCUsage

/-- JS `Math.round`: round half toward positive infinity. -/
def jsRound (q : ℚ) : ℤ := ⌊q + 1/2⌋

/-- JS `Math.max(...data)` over a nonempty list (the engine never applies it
to an empty series: the empty case returns early). -/
def listMax : List ℚ → ℚ
  | [] => 0
  | x :: xs => xs.foldl max x

/-- JS `Math.min(...data)` over a nonempty list. -/
def listMin : List ℚ → ℚ
  | [] => 0
  | x :: xs => xs.foldl min x

/-- The character canvas: row → column → character. -/
abbrev Canvas := ℤ → ℤ → Char

/-- `Array.from({length: height+1}, () => Array.from({length: width}, () => ' '))`. -/
def blankCanvas : Canvas := fun _ _ => ' '

/-- `canvas[y][x] = ch`. -/
def writeCell (cv : Canvas) (y x : ℤ) (ch : Char) : Canvas :=
  fun r c => if r = y ∧ c = x then ch else cv r c

/-- The `GraphOptions` record of `src/graphs/types.ts` / `_ascii-graph.ts`.
The optional `padding`/`format` fields are kept explicit; theorems quantify
over every record, which subsumes the defaults. -/
structure GraphOptions where
  width : ℕ
  height : ℕ
  padding : String
  format : ℚ → String

/-- JS `String.prototype.padStart(n)` (pad with spaces on the left; a target
length at most the current length leaves the string unchanged, which matches
the truncating `ℕ` subtraction). -/
def padStartStr (s : String) (n : ℕ) : String :=
  String.mk (List.replicate (n - s.data.length) ' ') ++ s

/-- JS `ch.repeat(n)`. -/
def strRep (ch : Char) (n : ℕ) : String :=
  String.mk (List.replicate n ch)

/-! ### The Bresenham stepping loop

Shared verbatim by `drawLine` (`_ascii-graph.ts`) and the segment loop of
`createLineGraph` (`graphs/line.ts`); only the cell write differs, and the
write never influences the control flow, so the loop is embedded once as the
list of visited cells in visiting order. -/

/-- One iteration tail of the loop: `e2 = 2*err; if (e2 > -dy) { err -= dy;
x += sx; } if (e2 < dx) { err += dx; y += sy; }`. State is `(x, y, err)`. -/
def bresStep (dx dy sx sy : ℤ) : ℤ × ℤ × ℤ → ℤ × ℤ × ℤ
  | (x, y, err) =>
    let e2 := 2 * err
    let p1 : ℤ × ℤ := if e2 > -dy then (x + sx, err - dy) else (x, err)
    let p2 : ℤ × ℤ := if e2 < dx then (y + sy, p1.2 + dx) else (y, p1.2)
    (p1.1, p2.1, p2.2)

/-- The `while (true)` loop: visit the current cell, break once `(x, y)`
equals `(x2, y2)`, else step.  Fuel-indexed; `none` = fuel exhausted. -/
def bresLoop (x2 y2 dx dy sx sy : ℤ) : ℕ → ℤ × ℤ × ℤ → Option (List (ℤ × ℤ))
  | 0, _ => none
  | fuel + 1, (x, y, err) =>
    if x = x2 ∧ y = y2 then some [(x, y)]
    else
      match bresLoop x2 y2 dx dy sx sy fuel (bresStep dx dy sx sy (x, y, err)) with
      | none => none
      | some pts => some ((x, y) :: pts)

/-- Canonical fuel: one more than the taxicab distance between the endpoints. -/
def bresFuel (x1 y1 x2 y2 : ℤ) : ℕ := (|x2 - x1| + |y2 - y1|).toNat + 1

/-- The whole loop, started as the source starts it:
`dx = |x2-x1|`, `dy = |y2-y1|`, `sx = x1 < x2 ? 1 : -1`,
`sy = y1 < y2 ? 1 : -1`, `err = dx - dy`, `(x, y) = (x1, y1)`. -/
def bresRun (x1 y1 x2 y2 : ℤ) : Option (List (ℤ × ℤ)) :=
  let dx := |x2 - x1|
  let dy := |y2 - y1|
  let sx : ℤ := if x1 < x2 then 1 else -1
  let sy : ℤ := if y1 < y2 then 1 else -1
  bresLoop x2 y2 dx dy sx sy (bresFuel x1 y1 x2 y2) (x1, y1, dx - dy)

/-- The visited cells of one Bresenham segment. -/
def bresPoints (x1 y1 x2 y2 : ℤ) : List (ℤ × ℤ) :=
  (bresRun x1 y1 x2 y2).getD []

/-! ### `drawLineGraph` (`src/_ascii-graph.ts`): tight domain, directional glyphs -/

/-- `const horizontal = ['─', '╱', '╲']` of `combineChars`. -/
def horizontalFam : List Char := ['─', '╱', '╲']

/-- `const vertical = ['│', '╱', '╲']` of `combineChars`. -/
def verticalFam : List Char := ['│', '╱', '╲']

/-- `combineChars(char1, char2)` of `_ascii-graph.ts`. -/
def combineChars (c1 c2 : Char) : Char :=
  if c1 ∈ horizontalFam ∧ c2 ∈ verticalFam then '┼'
  else if c1 ∈ verticalFam ∧ c2 ∈ horizontalFam then '┼'
  else c2

/-- The directional glyph choice of `drawLine`; `dx`, `dy`, `sx`, `sy` are
loop constants, so the per-iteration choice is one fixed character. -/
def segChar (dx dy sx sy : ℤ) : Char :=
  if dx = 0 then '│'
  else if dy = 0 then '─'
  else if (sx = 1 ∧ sy = 1) ∨ (sx = -1 ∧ sy = -1) then '╲'
  else '╱'

/-- Body of the `drawLine` loop at one visited cell `p = (x, y)`:
`if (x >= 0 && x < grid[0].length && y >= 0 && y < grid.length)` — the grid
has `width` columns and `height+1` rows — pick the directional glyph, merge
with a non-space occupant via `combineChars`, and write. -/
def plotDirectional (w h : ℕ) (ch : Char) (cv : Canvas) (p : ℤ × ℤ) : Canvas :=
  if 0 ≤ p.1 ∧ p.1 < (w : ℤ) ∧ 0 ≤ p.2 ∧ p.2 < (h : ℤ) + 1 then
    writeCell cv p.2 p.1 (if cv p.2 p.1 = ' ' then ch else combineChars (cv p.2 p.1) ch)
  else cv

/-- `drawLine(grid, x1, y1, x2, y2)` of `_ascii-graph.ts`. -/
def drawLine (w h : ℕ) (cv : Canvas) (x1 y1 x2 y2 : ℤ) : Canvas :=
  let dx := |x2 - x1|
  let dy := |y2 - y1|
  let sx : ℤ := if x1 < x2 then 1 else -1
  let sy : ℤ := if y1 < y2 then 1 else -1
  (bresPoints x1 y1 x2 y2).foldl (plotDirectional w h (segChar dx dy sx sy)) cv

/-- `const range = max - min || 1` (the `|| 1` fires exactly when the
difference is `0`). -/
def drawRange (data : List ℚ) : ℚ :=
  if listMax data - listMin data = 0 then 1 else listMax data - listMin data

/-- The `plotPoints` array of `drawLineGraph`:
`x = round(i * xStep)`, `y = round(height - normalizedValue * height)` with
`xStep = (width-1)/(data.length-1)` and
`normalizedValue = (data[i] - min) / range`. -/
def drawPlotPoints (data : List ℚ) (w h : ℕ) : List (ℤ × ℤ) :=
  let mn := listMin data
  let range := drawRange data
  let xStep : ℚ := ((w : ℚ) - 1) / ((data.length : ℚ) - 1)
  (List.range data.length).map fun (i : ℕ) =>
    (jsRound ((i : ℚ) * xStep), jsRound ((h : ℚ) - (data.getD i 0 - mn) / range * (h : ℚ)))

/-- The second pass of `drawLineGraph`: one `drawLine` per consecutive pair
of plot points. -/
def drawSegments (w h : ℕ) : Canvas → List (ℤ × ℤ) → Canvas
  | cv, p1 :: p2 :: rest => drawSegments w h (drawLine w h cv p1.1 p1.2 p2.1 p2.2) (p2 :: rest)
  | cv, _ => cv

/-- The grid of `drawLineGraph` after both passes. -/
def drawLineGraphCanvas (data : List ℚ) (w h : ℕ) : Canvas :=
  drawSegments w h blankCanvas (drawPlotPoints data w h)

/-- `grid[y].join('')` restricted to the `width` real columns of row `y`. -/
def rowString (cv : Canvas) (w : ℕ) (y : ℤ) : String :=
  String.mk ((List.range w).map fun (c : ℕ) => cv y (c : ℤ))

/-- The output rows of `drawLineGraph` for a series of length ≥ 2:
`` `${formattedLabel} ${rowChar}${grid[i].join('')}` `` with
`formattedLabel = format(max - (i/height)*range).padStart(padding.length - 2)`
and `rowChar = i === height ? '┼' : '┤'`.  Note the `padding` string itself is
never prepended on this path. -/
def drawLineGraphLines (data : List ℚ) (opt : GraphOptions) : List String :=
  let mx := listMax data
  let range := drawRange data
  let cv := drawLineGraphCanvas data opt.width opt.height
  (List.range (opt.height + 1)).map fun (i : ℕ) =>
    let value := mx - ((i : ℚ) / (opt.height : ℚ)) * range
    let formattedLabel := padStartStr (opt.format value) (opt.padding.data.length - 2)
    let rowChar := if i = opt.height then '┼' else '┤'
    formattedLabel ++ " " ++ String.mk [rowChar] ++ rowString cv opt.width (i : ℤ)

/-- `drawLineGraph(data, options)` of `src/_ascii-graph.ts`. -/
def drawLineGraph (data : List ℚ) (opt : GraphOptions) : String :=
  match data with
  | [] => ""
  | [v] => opt.padding ++ opt.format v ++ " ┼" ++ strRep '─' opt.width
  | _ => String.intercalate "\n" (drawLineGraphLines data opt)

/-! ### The zero-based stepped domain (`graphs/line.ts`, `graphs/bar.ts`) -/

/-- `yMax` of the stepped policy: `yAxisMax = Math.ceil(dataMax/20)*20`,
then `yMax = yAxisMax === 0 ? 20 : yAxisMax` (`yAxisStep = 20`). -/
def steppedYMax (data : List ℚ) : ℤ :=
  let yAxisMax := ⌈listMax data / 20⌉ * 20
  if yAxisMax = 0 then 20 else yAxisMax

/-- `Math.round(height - ((value - yMin) / yRange) * height)` with `yMin = 0`
and `yRange = yMax - yMin = yMax`. -/
def steppedY (yRange : ℤ) (h : ℕ) (v : ℚ) : ℤ :=
  jsRound ((h : ℚ) - v / (yRange : ℚ) * (h : ℚ))

/-- Body of the segment loop of `createLineGraph` at one visited cell:
`if (x >= 0 && x < width && y >= 0 && y <= height)` and the cell still holds
a space, write the uniform dot glyph (every direction branch of the source
writes the same `'·'`). -/
def plotUniform (w h : ℕ) (cv : Canvas) (p : ℤ × ℤ) : Canvas :=
  if 0 ≤ p.1 ∧ p.1 < (w : ℤ) ∧ 0 ≤ p.2 ∧ p.2 ≤ (h : ℤ) then
    if cv p.2 p.1 = ' ' then writeCell cv p.2 p.1 '·' else cv
  else cv

/-- The connecting-line loop of `createLineGraph`: for each `i`, a Bresenham
segment from `(round(i*xStep), y i)` to `(round((i+1)*xStep), y (i+1))`. -/
def lineSegments (w h : ℕ) (yR : ℤ) (xStep : ℚ) : Canvas → ℕ → List ℚ → Canvas
  | cv, i, v1 :: v2 :: rest =>
    let x1 := jsRound ((i : ℚ) * xStep)
    let x2 := jsRound (((i : ℚ) + 1) * xStep)
    let y1 := steppedY yR h v1
    let y2 := steppedY yR h v2
    lineSegments w h yR xStep ((bresPoints x1 y1 x2 y2).foldl (plotUniform w h) cv) (i + 1)
      (v2 :: rest)
  | cv, _, _ => cv

/-- The marker pass of `createLineGraph`: plot `'●'` at every data point that
lands inside the canvas, on top of the traced line. -/
def plotMarkers (w h : ℕ) (yR : ℤ) (xStep : ℚ) (data : List ℚ) (cv : Canvas) : Canvas :=
  data.enum.foldl
    (fun c iv =>
      let x := jsRound ((iv.1 : ℚ) * xStep)
      let y := steppedY yR h iv.2
      if 0 ≤ y ∧ y ≤ (h : ℤ) ∧ 0 ≤ x ∧ x < (w : ℤ) then writeCell c y x '●' else c)
    cv

/-- The canvas of `createLineGraph` after the segment and marker passes. -/
def createLineGraphCanvas (data : List ℚ) (w h : ℕ) : Canvas :=
  let yR := steppedYMax data
  let xStep : ℚ := ((w : ℚ) - 1) / ((data.length : ℚ) - 1)
  plotMarkers w h yR xStep data (lineSegments w h yR xStep blankCanvas 0 data)

/-- `Map.prototype.set` on an insertion-ordered association list: re-setting
an existing key updates it in place, a fresh key is appended. -/
def mapSet (m : List (ℤ × String)) (k : ℤ) (v : String) : List (ℤ × String) :=
  if m.any (fun p => p.1 = k) then m.map (fun p => if p.1 = k then (k, v) else p)
  else m ++ [(k, v)]

/-- `Map.prototype.get`. -/
def mapGet (m : List (ℤ × String)) (k : ℤ) : Option String :=
  (m.find? (fun p => p.1 = k)).map (fun p => p.2)

/-- `Map.prototype.has`. -/
def mapHas (m : List (ℤ × String)) (k : ℤ) : Bool :=
  m.any (fun p => p.1 = k)

/-- The tick values of `for (let value = yMin; value <= yMax; value += 20)`
with `yMin = 0`: the multiples of 20 in `[0, yMax]`, in ascending order. -/
def tickValues (yMax : ℤ) : List ℤ :=
  if 0 ≤ yMax then (List.range (yMax.toNat / 20 + 1)).map (fun (k : ℕ) => 20 * (k : ℤ)) else []

/-- The `yLabels` map (row → formatted label) shared verbatim by
`createLineGraph` and `createBarGraph`: each tick lands at its `steppedY`
row; rows outside the canvas are dropped; a later tick on the same row
overwrites the earlier one. -/
def yLabelsOf (data : List ℚ) (h : ℕ) (format : ℚ → String) : List (ℤ × String) :=
  let yMax := steppedYMax data
  (tickValues yMax).foldl
    (fun m v =>
      let y := steppedY yMax h (v : ℚ)
      if 0 ≤ y ∧ y ≤ (h : ℤ) then mapSet m y (format (v : ℚ)) else m)
    []

/-- `maxLabelWidth`: the longest label, `0` when there is none. -/
def maxLabelWidth (m : List (ℤ × String)) : ℕ :=
  (m.map (fun p => p.2.length)).foldr max 0

/-- The line-building loop shared verbatim by `createLineGraph` and
`createBarGraph`:
`` `${padding}${label} ${finalAxisChar}${canvasRow.join('')}` `` where
`label` is the tick label (or `''`) padded to `maxLabelWidth`, and the axis
glyph is `'┼'` on labelled rows and on the bottom row, `'┤'` elsewhere. -/
def steppedGridLines (cv : Canvas) (data : List ℚ) (opt : GraphOptions) : List String :=
  let labels := yLabelsOf data opt.height opt.format
  let mw := maxLabelWidth labels
  (List.range (opt.height + 1)).map fun (y : ℕ) =>
    let label := padStartStr ((mapGet labels (y : ℤ)).getD ("")) mw
    let axisChar := if mapHas labels (y : ℤ) then '┼' else '┤'
    let finalAxisChar := if y = opt.height then '┼' else axisChar
    opt.padding ++ label ++ " " ++ String.mk [finalAxisChar] ++ rowString cv opt.width (y : ℤ)

/-- The output rows of `createLineGraph` for a series of length ≥ 2. -/
def createLineGraphLines (data : List ℚ) (opt : GraphOptions) : List String :=
  steppedGridLines (createLineGraphCanvas data opt.width opt.height) data opt

/-- `createLineGraph(data, options)` of `src/graphs/line.ts`. -/
def createLineGraph (data : List ℚ) (opt : GraphOptions) : String :=
  match data with
  | [] => ""
  | [v] => opt.padding ++ opt.format v ++ " ┼" ++ strRep '─' (opt.width - 1) ++ "●"
  | _ => String.intercalate "\n" (createLineGraphLines data opt)

/-! ### `createBarGraph` (`src/graphs/bar.ts`) -/

/-- The fill loop of one bar:
`for (let y = height; y > height - barHeight; y--) for (let x = barStart;
x < barEnd; x++)`, writing `'█'`.  The write `canvasRow[x] = '█'` is guarded
in the source only by `x < width` and `canvasRow != null` (which is exactly
`0 ≤ y ≤ height`); there is no `x >= 0` guard. -/
def barFill (w h : ℕ) (barStart barEnd barHeight : ℤ) (cv : Canvas) : Canvas :=
  ((List.range barHeight.toNat).map (fun (k : ℕ) => (h : ℤ) - (k : ℤ))).foldl
    (fun c y =>
      ((List.range (barEnd - barStart).toNat).map (fun (k : ℕ) => barStart + (k : ℤ))).foldl
        (fun c2 x =>
          if x < (w : ℤ) ∧ 0 ≤ y ∧ y ≤ (h : ℤ) then writeCell c2 y x '█' else c2)
        c)
    cv

/-- The value-label write of one bar: guarded by
`valueY >= 0 && valueX >= 0 && valueX + valueStr.length <= width` outside the
character loop, and by `valueX + j < width && canvas[valueY] != null` (rows
`0 ≤ valueY ≤ height`) at each character.  When the outer guard fails the
whole label is skipped. -/
def barLabel (w h : ℕ) (valueY valueX : ℤ) (valueStr : String) (cv : Canvas) : Canvas :=
  if 0 ≤ valueY ∧ 0 ≤ valueX ∧ valueX + (valueStr.length : ℤ) ≤ (w : ℤ) then
    (List.range valueStr.length).foldl
      (fun c (j : ℕ) =>
        if valueX + (j : ℤ) < (w : ℤ) ∧ 0 ≤ valueY ∧ valueY ≤ (h : ℤ) then
          writeCell c valueY (valueX + (j : ℤ)) (valueStr.data.getD j ' ')
        else c)
      cv
  else cv

/-- `barHeight = Math.round(normalizedValue * height)` with
`normalizedValue = (value - yMin) / yRange` and `yMin = 0`. -/
def barHeightOf (h : ℕ) (yRange : ℤ) (value : ℚ) : ℤ :=
  jsRound (value / (yRange : ℚ) * (h : ℚ))

/-- `barStart = 1 + i * barAreaWidth + spacing`. -/
def barStartOf (i : ℕ) (bAW sp : ℤ) : ℤ :=
  1 + (i : ℤ) * bAW + sp

/-- `valueX = barStart + Math.floor((barWidth - valueStr.length) / 2)`
(the horizontal centring of the value label over the bar). -/
def valueXOf (i : ℕ) (bAW sp bW : ℤ) (len : ℕ) : ℤ :=
  barStartOf i bAW sp + ⌊((bW - (len : ℤ) : ℤ) : ℚ) / 2⌋

/-- The body of the bar loop of `createBarGraph` for bar `i` with value
`value`: fill the bar columns from the baseline upward
(`barEnd = Math.min(barStart + barWidth, width)`), then, when
`barHeight < height - 1`, attempt the centred value label one row above the
bar (`valueY = height - barHeight`). -/
def drawBar (w h : ℕ) (format : ℚ → String) (yRange bAW bW sp : ℤ) (cv : Canvas)
    (i : ℕ) (value : ℚ) : Canvas :=
  let barHeight := barHeightOf h yRange value
  let barStart := barStartOf i bAW sp
  let barEnd := min (barStart + bW) (w : ℤ)
  let filled := barFill w h barStart barEnd barHeight cv
  if barHeight < (h : ℤ) - 1 then
    let valueStr := format value
    barLabel w h ((h : ℤ) - barHeight) (valueXOf i bAW sp bW valueStr.length) valueStr filled
  else filled

/-- `barAreaWidth = Math.floor((width - 2) / data.length)`. -/
def barAreaWidthOf (w : ℕ) (len : ℕ) : ℤ :=
  ⌊(((w : ℤ) - 2 : ℤ) : ℚ) / (len : ℚ)⌋

/-- `barWidth = Math.max(1, Math.floor(barAreaWidth * 0.8))` (the literal
`0.8` is the rational `4/5`; see the header note on floats). -/
def barWidthOf (bAW : ℤ) : ℤ :=
  max 1 ⌊(bAW : ℚ) * (4/5)⌋

/-- `spacing = Math.max(1, Math.floor((barAreaWidth - barWidth) / 2))`. -/
def spacingOf (bAW bW : ℤ) : ℤ :=
  max 1 ⌊((bAW - bW : ℤ) : ℚ) / 2⌋

/-- The canvas of `createBarGraph` after the bar loop. -/
def createBarGraphCanvas (data : List ℚ) (w h : ℕ) (format : ℚ → String) : Canvas :=
  let yR := steppedYMax data
  let bAW := barAreaWidthOf w data.length
  let bW := barWidthOf bAW
  let sp := spacingOf bAW bW
  data.enum.foldl (fun cv iv => drawBar w h format yR bAW bW sp cv iv.1 iv.2) blankCanvas

/-- The output rows of `createBarGraph` for a nonempty series (the bar
renderer has no single-point special case: any nonempty series gets the full
grid). -/
def createBarGraphLines (data : List ℚ) (opt : GraphOptions) : List String :=
  steppedGridLines (createBarGraphCanvas data opt.width opt.height opt.format) data opt

/-- `createBarGraph(data, options)` of `src/graphs/bar.ts`. -/
def createBarGraph (data : List ℚ) (opt : GraphOptions) : String :=
  match data with
  | [] => ""
  | _ => String.intercalate "\n" (createBarGraphLines data opt)

/-! ### X-axis label selection (`daily` command) -/

/-- The intermediate-label loop
`for (let i = labelInterval; i < dataPoints - 1; i += labelInterval)`,
fuel-indexed (a fuel of `dataPoints` suffices whenever the interval is
positive). -/
def axisInter (n L : ℤ) : ℕ → ℤ → List ℤ
  | 0, _ => []
  | fuel + 1, i => if i < n - 1 then i :: axisInter n L fuel (i + L) else []

/-- The `selectedIndices` computation of the `daily` command:
`maxLabels = floor(graphWidth / 10)`, `labelCount = min(maxLabels,
dataPoints)`, `labelInterval = ceil(dataPoints / labelCount)`; always push
`0`; push the interval multiples below `dataPoints - 1`; finally push the
last index when it is at least half an interval past the previous selection
(or when only `0` was selected).  (For `graphWidth < 10` the JS division
yields `Infinity` where `ℚ` yields `0`; the CLI always passes
`graphWidth ≥ 60`, and the claims only exercise that regime.) -/
def selectLabelIndices (dataPoints graphWidth : ℤ) : List ℤ :=
  let maxLabels := ⌊(graphWidth : ℚ) / 10⌋
  let labelCount := min maxLabels dataPoints
  let labelInterval : ℤ := ⌈(dataPoints : ℚ) / (labelCount : ℚ)⌉
  let inter := axisInter dataPoints labelInterval dataPoints.toNat labelInterval
  let sel := 0 :: inter
  let lastIndex := dataPoints - 1
  if 1 < dataPoints then
    if ((lastIndex : ℚ) - ((sel.getLast (List.cons_ne_nil 0 inter) : ℤ) : ℚ)
          ≥ (labelInterval : ℚ) / 2) ∨ sel.length = 1
    then sel ++ [lastIndex] else sel
  else sel

/-! ### Specification-level predicates -/

/-- A coordinate pair addressing a real cell of the canvas: rows
`0..height`, columns `0..width-1`. -/
def InRange (w h : ℕ) (y x : ℤ) : Prop :=
  0 ≤ x ∧ x < (w : ℤ) ∧ 0 ≤ y ∧ y ≤ (h : ℤ)

/-- Every cell outside the canvas bounds still holds the initial space:
no out-of-range coordinate was ever written. -/
def OutsideBlank (w h : ℕ) (cv : Canvas) : Prop :=
  ∀ y x : ℤ, ¬ InRange w h y x → cv y x = ' '

/-- Row `r` of the canvas holds only spaces and horizontal-rule glyphs
(the invariant of the bottom row while a flat series is rasterised). -/
def RowClean (r : ℤ) (cv : Canvas) : Prop :=
  ∀ c : ℤ, cv r c = ' ' ∨ cv r c = '─'

/-! ## Basic lemmas -/

theorem writeCell_same (cv : Canvas) (y x : ℤ) (ch : Char) : writeCell cv y x ch y x = ch := by
  simp [writeCell]

theorem writeCell_other (cv : Canvas) (y x : ℤ) (ch : Char) {r c : ℤ}
    (h : ¬(r = y ∧ c = x)) : writeCell cv y x ch r c = cv r c := by
  simp only [writeCell, if_neg h]

theorem foldl_preserve {α : Type} (f : Canvas → α → Canvas) (P : Canvas → Prop) :
    ∀ (l : List α) (cv : Canvas), (∀ cv' a, a ∈ l → P cv' → P (f cv' a)) → P cv →
      P (l.foldl f cv) := by
  intro l
  induction l with
  | nil => intro cv _ h; simpa using h
  | cons a t ih =>
    intro cv hstep h
    simp only [List.foldl_cons]
    exact ih _ (fun cv' b hb => hstep cv' b (List.mem_cons_of_mem _ hb))
      (hstep cv a (List.mem_cons_self a t) h)

theorem strmk_length (l : List Char) : (String.mk l).length = l.length := rfl

theorem data_front (s t : String) : s.data <+: (s ++ t).data :=
  ⟨t.data, (String.data_append s t).symm⟩

theorem rowString_length (cv : Canvas) (w : ℕ) (y : ℤ) : (rowString cv w y).length = w := by
  show ((List.range w).map fun (c : ℕ) => cv y (c : ℤ)).length = w
  rw [List.length_map, List.length_range]

theorem padStartStr_length (s : String) (n : ℕ) :
    (padStartStr s n).length = max n s.length := by
  have h1 : (padStartStr s n).length
      = (String.mk (List.replicate (n - s.data.length) ' ')).length + s.length :=
    String.length_append _ _
  rw [h1, strmk_length, List.length_replicate]
  have h2 : s.length = s.data.length := rfl
  omega

theorem le_foldr_max (l : List ℕ) (a : ℕ) (h : a ∈ l) : a ≤ l.foldr max 0 := by
  induction l with
  | nil => simp at h
  | cons b t ih =>
    rcases List.mem_cons.1 h with rfl | h'
    · exact le_max_left _ _
    · exact le_trans (ih h') (le_max_right _ _)

/-! ## Out-of-range coordinates are never written (towards C1) -/

theorem outsideBlank_blank (w h : ℕ) : OutsideBlank w h blankCanvas :=
  fun _ _ _ => rfl

theorem outsideBlank_write (w h : ℕ) (cv : Canvas) (y x : ℤ) (ch : Char)
    (hin : InRange w h y x) (hcv : OutsideBlank w h cv) :
    OutsideBlank w h (writeCell cv y x ch) := by
  intro r c hout
  rw [writeCell_other]
  · exact hcv r c hout
  · rintro ⟨rfl, rfl⟩; exact hout hin

theorem outsideBlank_plotDirectional (w h : ℕ) (ch : Char) (cv : Canvas) (p : ℤ × ℤ)
    (hcv : OutsideBlank w h cv) : OutsideBlank w h (plotDirectional w h ch cv p) := by
  unfold plotDirectional
  split
  · next hg => exact outsideBlank_write w h cv p.2 p.1 _ ⟨hg.1, hg.2.1, hg.2.2.1, by omega⟩ hcv
  · exact hcv

theorem outsideBlank_plotUniform (w h : ℕ) (cv : Canvas) (p : ℤ × ℤ)
    (hcv : OutsideBlank w h cv) : OutsideBlank w h (plotUniform w h cv p) := by
  unfold plotUniform
  split
  · next hg =>
    split
    · exact outsideBlank_write w h cv p.2 p.1 _ ⟨hg.1, hg.2.1, hg.2.2.1, hg.2.2.2⟩ hcv
    · exact hcv
  · exact hcv

theorem outsideBlank_drawLine (w h : ℕ) (cv : Canvas) (x1 y1 x2 y2 : ℤ)
    (hcv : OutsideBlank w h cv) : OutsideBlank w h (drawLine w h cv x1 y1 x2 y2) := by
  unfold drawLine
  exact foldl_preserve _ _ _ cv
    (fun cv' a _ h' => outsideBlank_plotDirectional w h _ cv' a h') hcv

theorem outsideBlank_drawSegments (w h : ℕ) :
    ∀ (l : List (ℤ × ℤ)) (cv : Canvas), OutsideBlank w h cv →
      OutsideBlank w h (drawSegments w h cv l) := by
  intro l
  induction l with
  | nil => intro cv hcv; simpa [drawSegments] using hcv
  | cons p t ih =>
    cases t with
    | nil => intro cv hcv; simpa [drawSegments] using hcv
    | cons q r =>
      intro cv hcv
      simp only [drawSegments]
      exact ih _ (outsideBlank_drawLine _ _ _ _ _ _ _ hcv)

theorem outsideBlank_lineSegments (w h : ℕ) (yR : ℤ) (xStep : ℚ) :
    ∀ (l : List ℚ) (i : ℕ) (cv : Canvas), OutsideBlank w h cv →
      OutsideBlank w h (lineSegments w h yR xStep cv i l) := by
  intro l
  induction l with
  | nil => intro i cv hcv; simpa [lineSegments] using hcv
  | cons v t ih =>
    cases t with
    | nil => intro i cv hcv; simpa [lineSegments] using hcv
    | cons v2 r =>
      intro i cv hcv
      simp only [lineSegments]
      exact ih _ _ (foldl_preserve _ _ _ _
        (fun cv' a _ h' => outsideBlank_plotUniform w h cv' a h') hcv)

theorem outsideBlank_plotMarkers (w h : ℕ) (yR : ℤ) (xStep : ℚ) (data : List ℚ)
    (cv : Canvas) (hcv : OutsideBlank w h cv) :
    OutsideBlank w h (plotMarkers w h yR xStep data cv) := by
  unfold plotMarkers
  refine foldl_preserve _ _ _ cv (fun cv' a _ h' => ?_) hcv
  dsimp only
  split
  · next hg => exact outsideBlank_write w h cv' _ _ _ ⟨hg.2.2.1, hg.2.2.2, hg.1, hg.2.1⟩ h'
  · exact h'

theorem outsideBlank_barFill (w h : ℕ) (barStart barEnd barHeight : ℤ)
    (hbs : 0 ≤ barStart) (cv : Canvas) (hcv : OutsideBlank w h cv) :
    OutsideBlank w h (barFill w h barStart barEnd barHeight cv) := by
  unfold barFill
  refine foldl_preserve _ _ _ cv (fun cv' y _ h' => ?_) hcv
  refine foldl_preserve _ _ _ cv' (fun cv'' x hx h'' => ?_) h'
  obtain ⟨k, _, rfl⟩ := List.mem_map.1 hx
  split
  · next hg =>
    refine outsideBlank_write w h cv'' _ _ _ ⟨?_, hg.1, hg.2.1, hg.2.2⟩ h''
    have : (0:ℤ) ≤ (k : ℤ) := Int.natCast_nonneg k
    omega
  · exact h''

theorem outsideBlank_barLabel (w h : ℕ) (valueY valueX : ℤ) (valueStr : String)
    (cv : Canvas) (hcv : OutsideBlank w h cv) :
    OutsideBlank w h (barLabel w h valueY valueX valueStr cv) := by
  unfold barLabel
  split
  · next hg =>
    refine foldl_preserve _ _ _ cv (fun cv' j _ h' => ?_) hcv
    dsimp only
    split
    · next hg2 =>
      refine outsideBlank_write w h cv' _ _ _ ⟨?_, hg2.1, hg2.2.1, hg2.2.2⟩ h'
      have : (0:ℤ) ≤ (j : ℤ) := Int.natCast_nonneg j
      have := hg.2.1
      omega
    · exact h'
  · exact hcv

theorem outsideBlank_drawBar (w h : ℕ) (format : ℚ → String) (yR bAW bW sp : ℤ)
    (hbAW : 0 ≤ bAW) (hsp : 1 ≤ sp) (cv : Canvas) (i : ℕ) (value : ℚ)
    (hcv : OutsideBlank w h cv) :
    OutsideBlank w h (drawBar w h format yR bAW bW sp cv i value) := by
  unfold drawBar
  dsimp only
  have hbs : (0:ℤ) ≤ barStartOf i bAW sp := by
    have h1 : (0:ℤ) ≤ (i : ℤ) * bAW := mul_nonneg (Int.natCast_nonneg i) hbAW
    unfold barStartOf
    omega
  split
  · exact outsideBlank_barLabel w h _ _ _ _ (outsideBlank_barFill w h _ _ _ hbs cv hcv)
  · exact outsideBlank_barFill w h _ _ _ hbs cv hcv

theorem barAreaWidthOf_nonneg (w len : ℕ) (hw : 2 ≤ w) : 0 ≤ barAreaWidthOf w len := by
  unfold barAreaWidthOf
  refine Int.floor_nonneg.2 ?_
  rcases Nat.eq_zero_or_pos len with h0 | hpos
  · simp [h0]
  · refine div_nonneg ?_ (by positivity)
    have : (2:ℚ) ≤ (w:ℚ) := by exact_mod_cast hw
    push_cast
    linarith

theorem spacingOf_ge_one (bAW bW : ℤ) : 1 ≤ spacingOf bAW bW :=
  le_max_left 1 _

theorem outsideBlank_createBarGraphCanvas (data : List ℚ) (w h : ℕ)
    (format : ℚ → String) (hw : 2 ≤ w) :
    OutsideBlank w h (createBarGraphCanvas data w h format) := by
  unfold createBarGraphCanvas
  exact foldl_preserve _ _ _ _
    (fun cv' a _ h' =>
      outsideBlank_drawBar w h format _ _ _ _ (barAreaWidthOf_nonneg w _ hw)
        (spacingOf_ge_one _ _) cv' a.1 a.2 h')
    (outsideBlank_blank w h)

/-! ## Claim theorems (first batch) -/

/-- C5: in every chart mode (`drawLineGraph`, `createLineGraph`,
`createBarGraph`) and for every options record, rendering the empty series
returns exactly the empty string. -/
theorem c5_empty_series (opt : GraphOptions) :
    drawLineGraph [] opt = "" ∧ createLineGraph [] opt = "" ∧ createBarGraph [] opt = "" :=
  ⟨rfl, rfl, rfl⟩

/-- C4: under the zero-based stepped domain policy, `yMin = 0` and
`yMax = ceil(max(data)/20)*20` except that when this rounding yields 0 (in
particular when `max(data) = 0`) `yMax` equals exactly one step, 20; `yMax`
(and hence the normalisation divisor `yRange = yMax - 0`) is never zero. -/
theorem c4_stepped_ymax_never_zero (data : List ℚ) :
    steppedYMax data ≠ 0 ∧
    (⌈listMax data / 20⌉ * 20 ≠ 0 → steppedYMax data = ⌈listMax data / 20⌉ * 20) ∧
    (listMax data = 0 → steppedYMax data = 20) := by
  unfold steppedYMax
  refine ⟨?_, ?_, ?_⟩
  · by_cases h : ⌈listMax data / 20⌉ * 20 = 0 <;> simp [h]
  · intro h; simp [h]
  · intro h; simp [h]

/-- Witness for C4 at the concrete all-zero series `[0]`. -/
theorem c4_witness : steppedYMax [(0:ℚ)] = 20 :=
  (c4_stepped_ymax_never_zero [0]).2.2 (by with_unfolding_all decide)

/-- C8: for `dataPointCount = 10` and `graphWidth = 60`, the selected x-axis
label indices are `[0, 2, 4, 6, 8, 9]`: at most `⌊60/10⌋ = 6` of them,
containing index 0 and the last index 9 (which sits exactly half a label
interval past the previous selection 8, hence is not dropped). -/
theorem c8_label_selection :
    selectLabelIndices 10 60 = [0, 2, 4, 6, 8, 9] ∧
    (selectLabelIndices 10 60).length ≤ 6 ∧
    (0:ℤ) ∈ selectLabelIndices 10 60 ∧ (9:ℤ) ∈ selectLabelIndices 10 60 := by
  with_unfolding_all decide

/-! ## Single-point rendering (C2) -/

theorem mem_strRep {ch c' : Char} {n : ℕ} (h : c' ∈ (strRep ch n).data) : c' = ch := by
  exact List.eq_of_mem_replicate h

/-- C2 (amended): the single-point special case exists only in the two line
modes.  For every one-element series `[v]` and every options record with
`width ≥ 1`, `drawLineGraph` returns exactly
`padding ++ format v ++ " ┼" ++ '─'.repeat(width)` and `createLineGraph`
returns exactly `padding ++ format v ++ " ┼" ++ '─'.repeat(width-1) ++ "●"`,
with no grid built; the output is a single line (no newline) whenever the
padding and the formatted value contain none.  `createBarGraph` has no such
branch: it renders the full `height+1`-line grid even for one data point. -/
theorem c2_single_point (v : ℚ) (opt : GraphOptions) (hw : 1 ≤ opt.width) :
    drawLineGraph [v] opt = opt.padding ++ opt.format v ++ " ┼" ++ strRep '─' opt.width ∧
    createLineGraph [v] opt
      = opt.padding ++ opt.format v ++ " ┼" ++ strRep '─' (opt.width - 1) ++ "●" ∧
    ('\n' ∉ opt.padding.data → '\n' ∉ (opt.format v).data →
      '\n' ∉ (drawLineGraph [v] opt).data ∧ '\n' ∉ (createLineGraph [v] opt).data) := by
  refine ⟨rfl, rfl, fun hp hf => ⟨?_, ?_⟩⟩
  · show '\n' ∉ (opt.padding ++ opt.format v ++ " ┼" ++ strRep '─' opt.width).data
    simp only [String.data_append, List.mem_append]
    rintro (((h | h) | h) | h)
    · exact hp h
    · exact hf h
    · revert h
      decide
    · exact absurd (mem_strRep h) (by decide)
  · show '\n' ∉ (opt.padding ++ opt.format v ++ " ┼"
        ++ strRep '─' (opt.width - 1) ++ "●").data
    simp only [String.data_append, List.mem_append]
    rintro ((((h | h) | h) | h) | h)
    · exact hp h
    · exact hf h
    · revert h
      decide
    · exact absurd (mem_strRep h) (by decide)
    · revert h
      decide

/-- Witness for C2 at `v = 7`, `width = 3`, `height = 1`. -/
theorem c2_witness :
    '\n' ∉ (drawLineGraph [(7:ℚ)] (⟨3, 1, "p", fun _ => ("F")⟩ : GraphOptions)).data :=
  ((c2_single_point 7 _ (by decide)).2.2 (by decide) (by decide)).1

/-- C2 counterexample: for the one-element series `[50]` with `width = 5`,
`height = 1`, `createBarGraph` emits a newline — its output is the full
two-line grid, not the single line the claim asserts for every chart mode. -/
theorem c2_counterexample :
    '\n' ∈ (createBarGraph [(50:ℚ)] (⟨5, 1, "", fun _ => ("L")⟩ : GraphOptions)).data := by
  with_unfolding_all decide

/-! ## Padding as a line prefix (C7) -/

theorem steppedGridLines_start_with_padding (cv : Canvas) (data : List ℚ)
    (opt : GraphOptions) : ∀ l ∈ steppedGridLines cv data opt, opt.padding.data <+: l.data := by
  intro l hl
  simp only [steppedGridLines, List.mem_map, List.mem_range] at hl
  obtain ⟨y, _, rfl⟩ := hl
  exact (((data_front _ _).trans (data_front _ _)).trans (data_front _ _)).trans
    (data_front _ _)

/-- C7 (amended): the `padding` option string is a prefix of every rendered
grid line of `createLineGraph` and of `createBarGraph`, which prepend it to
every row.  `drawLineGraph` does not prepend `padding` on its multi-line
path (it only uses `padding.length - 2` as a label-padding width), so the
claim fails for that mode. -/
theorem c7_padding_starts_every_line (data : List ℚ) (opt : GraphOptions) :
    (∀ l ∈ createLineGraphLines data opt, opt.padding.data <+: l.data) ∧
    (∀ l ∈ createBarGraphLines data opt, opt.padding.data <+: l.data) :=
  ⟨steppedGridLines_start_with_padding _ _ _, steppedGridLines_start_with_padding _ _ _⟩

/-- Witness for C7: the first line of a concrete smooth-line grid starts with
the padding string `"ab"`. -/
theorem c7_witness :
    "ab".data <+: ((createLineGraphLines [(0:ℚ), 20]
      (⟨1, 1, "ab", fun _ => ("$")⟩ : GraphOptions)).getD 0 ("")).data :=
  (c7_padding_starts_every_line [(0:ℚ), 20]
      (⟨1, 1, "ab", fun _ => ("$")⟩ : GraphOptions)).1
    ((createLineGraphLines [(0:ℚ), 20]
      (⟨1, 1, "ab", fun _ => ("$")⟩ : GraphOptions)).getD 0 (""))
    (by with_unfolding_all decide)

/-- C7 counterexample: `drawLineGraph` with `padding = "ab"` produces lines
that do not start with `"ab"` (its multi-line path never prepends the
padding), refuting the claim for the plain-line mode. -/
theorem c7_counterexample :
    ¬ ∀ l ∈ drawLineGraphLines [(0:ℚ), 1] (⟨1, 1, "ab", fun _ => ("x")⟩ : GraphOptions),
      ("ab").data <+: l.data := by
  with_unfolding_all decide

/-! ## Uniform line lengths of the stepped grid (C10) -/

theorem steppedGridLines_length (cv : Canvas) (data : List ℚ) (opt : GraphOptions) :
    (steppedGridLines cv data opt).length = opt.height + 1 := by
  show ((List.range (opt.height + 1)).map _).length = opt.height + 1
  rw [List.length_map, List.length_range]

theorem label_le_maxLabelWidth (m : List (ℤ × String)) (k : ℤ) :
    ((mapGet m k).getD ("")).length ≤ maxLabelWidth m := by
  cases hfind : mapGet m k with
  | none => simp [Option.getD_none]
  | some s =>
    rw [Option.getD_some]
    unfold mapGet at hfind
    obtain ⟨p, hp, rfl⟩ := Option.map_eq_some'.1 hfind
    exact le_foldr_max _ _ (List.mem_map_of_mem _ (List.mem_of_find?_eq_some hp))

theorem steppedGridLines_line_length (cv : Canvas) (data : List ℚ) (opt : GraphOptions) :
    ∀ l ∈ steppedGridLines cv data opt,
      l.length = opt.padding.length
        + maxLabelWidth (yLabelsOf data opt.height opt.format) + 2 + opt.width := by
  intro l hl
  simp only [steppedGridLines, List.mem_map, List.mem_range] at hl
  obtain ⟨y, _, rfl⟩ := hl
  have hle := label_le_maxLabelWidth (yLabelsOf data opt.height opt.format) (y : ℤ)
  rw [String.length_append, String.length_append, String.length_append,
    String.length_append, padStartStr_length, rowString_length,
    Nat.max_eq_left hle]
  have h1 : (" " : String).length = 1 := rfl
  have h2 : ∀ ch : Char, (String.mk [ch]).length = 1 := fun _ => rfl
  rw [h1, h2]

/-- C10: for every series and options record, the grid output of
`createLineGraph` and of `createBarGraph` (rendered for every series of
length ≥ 2) consists of exactly `height + 1` lines, all of the same length
`|padding| + maxLabelWidth + 2 + width`: every tick label is left-padded to
`maxLabelWidth`, rows without a tick get a space run of that width, the
separator space and axis glyph occupy two characters, and each canvas row
contributes exactly `width` characters. -/
theorem c10_uniform_line_length (data : List ℚ) (opt : GraphOptions)
    (h2 : 2 ≤ data.length) :
    ((createLineGraphLines data opt).length = opt.height + 1 ∧
      ∀ l ∈ createLineGraphLines data opt,
        l.length = opt.padding.length
          + maxLabelWidth (yLabelsOf data opt.height opt.format) + 2 + opt.width) ∧
    ((createBarGraphLines data opt).length = opt.height + 1 ∧
      ∀ l ∈ createBarGraphLines data opt,
        l.length = opt.padding.length
          + maxLabelWidth (yLabelsOf data opt.height opt.format) + 2 + opt.width) :=
  ⟨⟨steppedGridLines_length _ _ _, steppedGridLines_line_length _ _ _⟩,
    ⟨steppedGridLines_length _ _ _, steppedGridLines_line_length _ _ _⟩⟩

/-- Witness for C10 at the two-point series `[0, 20]` with `width = 4`,
`height = 2`. -/
theorem c10_witness :
    (createLineGraphLines [(0:ℚ), 20]
      (⟨4, 2, "p", fun _ => ("$")⟩ : GraphOptions)).length = 2 + 1 :=
  (c10_uniform_line_length [(0:ℚ), 20] _ (by decide)).1.1

/-! ## C1: canvas writes stay in range -/

/-- C1 (amended): for every series and every options record with
`width ≥ 1`, `height ≥ 1`, every cell outside `[0,height] × [0,width)`
of the final canvas still holds the initial space — no computed coordinate
outside that range is ever written (and, the embedding being total, nothing
throws).  This holds unconditionally for the line rasterisation, point
markers and value labels; for the bar filler it additionally needs
`width ≥ 2`: at `width = 1` the unguarded lower column bound is violated
(see the counterexample). -/
theorem c1_out_of_range_never_written (data : List ℚ) (opt : GraphOptions)
    (hw : 1 ≤ opt.width) (hh : 1 ≤ opt.height) :
    OutsideBlank opt.width opt.height (drawLineGraphCanvas data opt.width opt.height) ∧
    OutsideBlank opt.width opt.height (createLineGraphCanvas data opt.width opt.height) ∧
    (2 ≤ opt.width →
      OutsideBlank opt.width opt.height
        (createBarGraphCanvas data opt.width opt.height opt.format)) := by
  refine ⟨?_, ?_, fun hw2 => outsideBlank_createBarGraphCanvas _ _ _ _ hw2⟩
  · exact outsideBlank_drawSegments _ _ _ _ (outsideBlank_blank _ _)
  · unfold createLineGraphCanvas
    exact outsideBlank_plotMarkers _ _ _ _ _ _
      (outsideBlank_lineSegments _ _ _ _ _ _ _ (outsideBlank_blank _ _))

/-- Witness for C1 at a concrete series and options record. -/
theorem c1_witness :
    OutsideBlank 2 1 (createBarGraphCanvas [(10:ℚ)] 2 1 (fun _ => ("$"))) :=
  (c1_out_of_range_never_written [(10:ℚ)] (⟨2, 1, "", fun _ => ("$")⟩ : GraphOptions)
    (by decide) (by decide)).2.2 (by decide)

/-- C1 counterexample: at `width = 1` the bar filler of `createBarGraph`
writes `'█'` at column `-1` (an out-of-range coordinate): with four bars,
`barAreaWidth = floor(-1/4) = -1`, so bar 3 gets `barStart = -1`, and the
fill loop has no `x >= 0` guard.  The claim's invariant therefore fails for
`createBarGraph` at `width = 1`. -/
theorem c1_counterexample :
    ¬ InRange 1 1 1 (-1) ∧
    createBarGraphCanvas [10, 10, 10, 10] 1 1 (fun _ => ("")) 1 (-1) = '█' := by
  constructor
  · unfold InRange
    with_unfolding_all decide
  · with_unfolding_all decide

/-! ## C6: the bar value label -/

theorem barFill_row_le (w h : ℕ) (barStart barEnd barHeight : ℤ) (cv : Canvas)
    (r : ℤ) (hr : r ≤ (h : ℤ) - barHeight) :
    ∀ c, barFill w h barStart barEnd barHeight cv r c = cv r c := by
  unfold barFill
  refine foldl_preserve _ (fun cv' => ∀ c, cv' r c = cv r c) _ cv ?_ (fun _ => rfl)
  intro cv' y hy hP
  obtain ⟨k, hk, rfl⟩ := List.mem_map.1 hy
  rw [List.mem_range] at hk
  have hkz : (k : ℤ) < barHeight := by
    have := Int.lt_toNat.1 hk
    exact_mod_cast this
  refine foldl_preserve _ (fun cv'' => ∀ c, cv'' r c = cv r c) _ cv' ?_ hP
  intro cv'' x _ hP' c
  split
  · rw [writeCell_other]
    · exact hP' c
    · rintro ⟨rfl, rfl⟩
      omega
  · exact hP' c

theorem barLabel_skip (w h : ℕ) (valueY valueX : ℤ) (s : String) (cv : Canvas)
    (hno : ¬ (0 ≤ valueY ∧ 0 ≤ valueX ∧ valueX + (s.length : ℤ) ≤ (w : ℤ))) :
    barLabel w h valueY valueX s cv = cv := by
  unfold barLabel
  rw [if_neg hno]

theorem barLabel_fits (w h : ℕ) (valueY valueX : ℤ) (s : String) (cv : Canvas)
    (hy0 : 0 ≤ valueY) (hyh : valueY ≤ (h : ℤ)) (hx0 : 0 ≤ valueX)
    (hfit : valueX + (s.length : ℤ) ≤ (w : ℤ)) :
    ∀ j : ℕ, j < s.length →
      barLabel w h valueY valueX s cv valueY (valueX + (j : ℤ)) = s.data.getD j ' ' := by
  unfold barLabel
  rw [if_pos ⟨hy0, hx0, hfit⟩]
  suffices H : ∀ n : ℕ, n ≤ s.length → ∀ j : ℕ, j < n →
      ((List.range n).foldl
        (fun c (j : ℕ) =>
          if valueX + (j : ℤ) < (w : ℤ) ∧ 0 ≤ valueY ∧ valueY ≤ (h : ℤ) then
            writeCell c valueY (valueX + (j : ℤ)) (s.data.getD j ' ')
          else c)
        cv) valueY (valueX + (j : ℤ)) = s.data.getD j ' ' by
    exact H s.length le_rfl
  intro n
  induction n with
  | zero => intro _ j hj; omega
  | succ n ih =>
    intro hn j hj
    rw [List.range_succ, List.foldl_append, List.foldl_cons, List.foldl_nil]
    have hguard : valueX + (n : ℤ) < (w : ℤ) ∧ 0 ≤ valueY ∧ valueY ≤ (h : ℤ) := by
      refine ⟨?_, hy0, hyh⟩
      have : (n : ℤ) < (s.length : ℤ) := by exact_mod_cast hn
      omega
    rw [if_pos hguard]
    rcases Nat.lt_or_ge j n with hlt | hge
    · rw [writeCell_other]
      · exact ih (by omega) j hlt
      · rintro ⟨-, hc⟩
        have : j = n := by exact_mod_cast add_left_cancel hc
        omega
    · have hjn : j = n := by omega
      subst hjn
      exact writeCell_same _ _ _ _

/-- C6 (amended): in `createBarGraph`, for every bar `i` with
`barHeight < height - 1`, the formatted value string is centred horizontally
over the bar and written character by character into the row immediately
above the bar (row `height - barHeight`) — but only when the whole label
fits: `valueY ≥ 0`, `valueX ≥ 0` and `valueX + |label| ≤ width`.  A label
that would overflow the right edge is not truncated character by character:
the entire label is skipped and the row above the bar is left untouched. -/
theorem c6_bar_value_label (w h : ℕ) (format : ℚ → String) (yR bAW bW sp : ℤ)
    (cv : Canvas) (i : ℕ) (value : ℚ)
    (hbh : barHeightOf h yR value < (h : ℤ) - 1) :
    (0 ≤ barHeightOf h yR value →
      0 ≤ valueXOf i bAW sp bW (format value).length →
      valueXOf i bAW sp bW (format value).length + ((format value).length : ℤ) ≤ (w : ℤ) →
      ∀ j : ℕ, j < (format value).length →
        drawBar w h format yR bAW bW sp cv i value
            ((h : ℤ) - barHeightOf h yR value)
            (valueXOf i bAW sp bW (format value).length + (j : ℤ))
          = (format value).data.getD j ' ') ∧
    ((w : ℤ) < valueXOf i bAW sp bW (format value).length + ((format value).length : ℤ) →
      ∀ c : ℤ, drawBar w h format yR bAW bW sp cv i value
            ((h : ℤ) - barHeightOf h yR value) c
          = cv ((h : ℤ) - barHeightOf h yR value) c) := by
  unfold drawBar
  dsimp only
  rw [if_pos hbh]
  constructor
  · intro hbh0 hx0 hfit j hj
    exact barLabel_fits w h _ _ _ _ (by omega) (by omega) hx0 hfit j hj
  · intro hover c
    rw [barLabel_skip]
    · exact barFill_row_le w h _ _ _ cv _ le_rfl c
    · rintro ⟨-, -, hfit⟩
      omega

/-- Witness for C6: a fitting two-character label written above a concrete
bar. -/
theorem c6_witness :
    drawBar 9 5 (fun _ => ("XX")) 20 7 5 1 blankCanvas 0 10
        ((5:ℤ) - barHeightOf 5 20 10) (valueXOf 0 7 1 5 ("XX").length + (0 : ℤ))
      = ("XX").data.getD 0 ' ' :=
  (c6_bar_value_label 9 5 (fun _ => ("XX")) 20 7 5 1 blankCanvas 0 10
      (by with_unfolding_all decide)).1
    (by with_unfolding_all decide) (by with_unfolding_all decide)
    (by with_unfolding_all decide) 0 (by decide)

/-- C6 counterexample: with `width = 5`, `height = 5`, `format` constantly a
six-character label, the single bar `[10]` has `barHeight = 3 < height - 1`,
`valueX = 0`, and the label would overflow the right edge
(`0 + 6 > 5`); the claim says the in-range characters (columns 0–4 of row 2)
are still written, but the code skips the whole label: row 2 stays blank
while the bar itself is drawn. -/
theorem c6_counterexample :
    createBarGraphCanvas [10] 5 5 (fun _ => ("XXXXXX")) 2 0 = ' ' ∧
    createBarGraphCanvas [10] 5 5 (fun _ => ("XXXXXX")) 3 2 = '█' := by
  with_unfolding_all decide

/-! ## C9: the Bresenham loop reaches its endpoint and terminates

The invariant: after `a` x-steps and `b` y-steps the state is
`(x1 + sx*a, y1 + sy*b, dx - dy - a*dy + b*dx)` with `0 ≤ a ≤ dx`,
`0 ≤ b ≤ dy`.  Each non-final iteration performs at least one step and never
overshoots, so the taxicab fuel suffices. -/

theorem getLast?_cons {α : Type} {a p : α} {l : List α} (h : l.getLast? = some p) :
    (a :: l).getLast? = some p := by
  cases l with
  | nil => simp at h
  | cons b t => rw [List.getLast?_cons_cons]; exact h

theorem bresLoop_reaches (dx dy sx sy x1 y1 : ℤ) (hdx : 0 ≤ dx) (hdy : 0 ≤ dy)
    (hsx : sx = 1 ∨ sx = -1) (hsy : sy = 1 ∨ sy = -1) :
    ∀ (fuel : ℕ) (a b : ℤ), 0 ≤ a → a ≤ dx → 0 ≤ b → b ≤ dy →
      dx + dy < (fuel : ℤ) + a + b →
      ∃ pts, bresLoop (x1 + sx * dx) (y1 + sy * dy) dx dy sx sy fuel
          (x1 + sx * a, y1 + sy * b, dx - dy - a * dy + b * dx) = some pts ∧
        pts.getLast? = some (x1 + sx * dx, y1 + sy * dy) := by
  intro fuel
  induction fuel with
  | zero =>
    intro a b ha0 hadx hb0 hbdy hm
    exfalso
    push_cast at hm
    omega
  | succ fuel ih =>
    intro a b ha0 hadx hb0 hbdy hm
    by_cases hab : a = dx ∧ b = dy
    · obtain ⟨rfl, rfl⟩ := hab
      refine ⟨[(x1 + sx * a, y1 + sy * b)], ?_, rfl⟩
      rw [bresLoop, if_pos ⟨rfl, rfl⟩]
    · have hcond : ¬ (x1 + sx * a = x1 + sx * dx ∧ y1 + sy * b = y1 + sy * dy) := by
        rintro ⟨hxx, hyy⟩
        refine hab ⟨?_, ?_⟩
        · rcases hsx with rfl | rfl <;> omega
        · rcases hsy with rfl | rfl <;> omega
      have hSXlt : 2 * (dx - dy - a * dy + b * dx) > -dy → a < dx := by
        intro hSX
        rcases eq_or_lt_of_le hadx with rfl | h
        · exfalso
          have hbdy' : b < dy := lt_of_le_of_ne hbdy (fun hb => hab ⟨rfl, hb⟩)
          nlinarith [mul_nonneg ha0 (show (0:ℤ) ≤ dy - 1 - b by omega)]
        · exact h
      have hSYlt : 2 * (dx - dy - a * dy + b * dx) < dx → b < dy := by
        intro hSY
        rcases eq_or_lt_of_le hbdy with rfl | h
        · exfalso
          have hadx' : a < dx := lt_of_le_of_ne hadx (fun ha => hab ⟨ha, rfl⟩)
          nlinarith [mul_nonneg hb0 (show (0:ℤ) ≤ dx - 1 - a by omega)]
        · exact h
      have hstep : 2 * (dx - dy - a * dy + b * dx) > -dy
          ∨ 2 * (dx - dy - a * dy + b * dx) < dx := by
        by_contra hcon
        push_neg at hcon
        obtain ⟨h1, h2⟩ := hcon
        exact hab ⟨by omega, by omega⟩
      rw [bresLoop, if_neg hcond]
      by_cases hSX : 2 * (dx - dy - a * dy + b * dx) > -dy
        <;> by_cases hSY : 2 * (dx - dy - a * dy + b * dx) < dx
      · have hstepeq : bresStep dx dy sx sy
            (x1 + sx * a, y1 + sy * b, dx - dy - a * dy + b * dx)
            = (x1 + sx * (a + 1), y1 + sy * (b + 1),
              dx - dy - (a + 1) * dy + (b + 1) * dx) := by
          simp only [bresStep, if_pos hSX, if_pos hSY]
          refine Prod.ext (by ring) (Prod.ext (by ring) (by ring))
        rw [hstepeq]
        obtain ⟨pts, hpts, hlast⟩ := ih (a + 1) (b + 1) (by omega) (hSXlt hSX)
          (by omega) (hSYlt hSY) (by push_cast at hm ⊢; omega)
        rw [hpts]
        exact ⟨(x1 + sx * a, y1 + sy * b) :: pts, rfl, getLast?_cons hlast⟩
      · have hstepeq : bresStep dx dy sx sy
            (x1 + sx * a, y1 + sy * b, dx - dy - a * dy + b * dx)
            = (x1 + sx * (a + 1), y1 + sy * b,
              dx - dy - (a + 1) * dy + b * dx) := by
          simp only [bresStep, if_pos hSX, if_neg hSY]
          refine Prod.ext (by ring) (Prod.ext (by ring) (by ring))
        rw [hstepeq]
        obtain ⟨pts, hpts, hlast⟩ := ih (a + 1) b (by omega) (hSXlt hSX)
          hb0 hbdy (by push_cast at hm ⊢; omega)
        rw [hpts]
        exact ⟨(x1 + sx * a, y1 + sy * b) :: pts, rfl, getLast?_cons hlast⟩
      · have hstepeq : bresStep dx dy sx sy
            (x1 + sx * a, y1 + sy * b, dx - dy - a * dy + b * dx)
            = (x1 + sx * a, y1 + sy * (b + 1),
              dx - dy - a * dy + (b + 1) * dx) := by
          simp only [bresStep, if_neg hSX, if_pos hSY]
          refine Prod.ext (by ring) (Prod.ext (by ring) (by ring))
        rw [hstepeq]
        obtain ⟨pts, hpts, hlast⟩ := ih a (b + 1) ha0 hadx
          (by omega) (hSYlt hSY) (by push_cast at hm ⊢; omega)
        rw [hpts]
        exact ⟨(x1 + sx * a, y1 + sy * b) :: pts, rfl, getLast?_cons hlast⟩
      · exact absurd hstep (by tauto)

/-- C9: for every pair of integer grid endpoints, the Bresenham stepping
loop (error accumulator `err = dx - dy`, stepping per iteration by comparing
`2*err` against `-dy` and `dx`), run with its canonical fuel, terminates by
reaching `(x2, y2)`: the run returns `some` visited-cell list whose last
element is the far endpoint.  In particular the rasteriser is total on all
integer endpoint pairs, including endpoints outside the canvas. -/
theorem c9_bresenham_reaches_endpoint (x1 y1 x2 y2 : ℤ) :
    ∃ pts : List (ℤ × ℤ), bresRun x1 y1 x2 y2 = some pts ∧
      pts.getLast? = some (x2, y2) := by
  unfold bresRun bresFuel
  dsimp only
  have hx2 : x1 + (if x1 < x2 then (1:ℤ) else -1) * |x2 - x1| = x2 := by
    rcases lt_trichotomy x1 x2 with h | h | h
    · rw [if_pos h, abs_of_nonneg (by omega)]
      ring_nf
    · rw [if_neg (by omega), abs_of_nonpos (by omega)]
      ring_nf
    · rw [if_neg (by omega), abs_of_nonpos (by omega)]
      ring_nf
  have hy2 : y1 + (if y1 < y2 then (1:ℤ) else -1) * |y2 - y1| = y2 := by
    rcases lt_trichotomy y1 y2 with h | h | h
    · rw [if_pos h, abs_of_nonneg (by omega)]
      ring_nf
    · rw [if_neg (by omega), abs_of_nonpos (by omega)]
      ring_nf
    · rw [if_neg (by omega), abs_of_nonpos (by omega)]
      ring_nf
  obtain ⟨pts, hloop, hlast⟩ := bresLoop_reaches |x2 - x1| |y2 - y1|
    (if x1 < x2 then (1:ℤ) else -1) (if y1 < y2 then (1:ℤ) else -1) x1 y1
    (abs_nonneg _) (abs_nonneg _)
    (by split <;> [exact Or.inl rfl; exact Or.inr rfl])
    (by split <;> [exact Or.inl rfl; exact Or.inr rfl])
    ((|x2 - x1| + |y2 - y1|).toNat + 1) 0 0 le_rfl (abs_nonneg _) le_rfl (abs_nonneg _)
    (by
      have habs : (0:ℤ) ≤ |x2 - x1| + |y2 - y1| :=
        add_nonneg (abs_nonneg _) (abs_nonneg _)
      push_cast
      rw [Int.toNat_of_nonneg habs]
      omega)
  simp only [mul_zero, add_zero, zero_mul, sub_zero] at hloop hlast
  rw [hx2, hy2] at hloop hlast
  exact ⟨pts, hloop, hlast⟩

/-! ## C3: flat series under the tight domain

A purely horizontal Bresenham segment (`dy = 0`, `dx > 0`) steps `x` by one
each iteration and never moves `y`, so it visits exactly the cells from
`x1` to `x2` on its row. -/

theorem jsRound_mono {q r : ℚ} (h : q ≤ r) : jsRound q ≤ jsRound r :=
  Int.floor_le_floor (by linarith)

theorem jsRound_add_one (q : ℚ) : jsRound (q + 1) = jsRound q + 1 := by
  unfold jsRound
  rw [show q + 1 + 1/2 = q + 1/2 + 1 by ring, Int.floor_add_one]

theorem jsRound_intCast (m : ℤ) : jsRound (m : ℚ) = m := by
  unfold jsRound
  rw [Int.floor_int_add]
  norm_num

theorem jsRound_natCast (m : ℕ) : jsRound (m : ℚ) = m := by
  have : ((m : ℤ) : ℚ) = (m : ℚ) := by push_cast; rfl
  rw [← this, jsRound_intCast]

theorem bresLoop_horiz (d : ℕ) (hd : 0 < d) :
    ∀ (rem : ℕ), rem ≤ d → ∀ (fuel : ℕ), rem < fuel → ∀ (x2 y sy : ℤ),
      bresLoop x2 y (d : ℤ) 0 1 sy fuel (x2 - (rem : ℤ), y, (d : ℤ))
        = some ((List.range (rem + 1)).map fun (k : ℕ) => (x2 - (rem : ℤ) + (k : ℤ), y)) := by
  intro rem
  induction rem with
  | zero =>
    intro _ fuel hfuel x2 y sy
    cases fuel with
    | zero => omega
    | succ f =>
      rw [bresLoop, if_pos ⟨by norm_num, rfl⟩]
      simp [List.range_succ]
  | succ rem ih =>
    intro hrd fuel hfuel x2 y sy
    cases fuel with
    | zero => omega
    | succ f =>
      have hne : ¬ (x2 - ((rem : ℤ) + 1) = x2 ∧ y = y) := by
        rintro ⟨hx, -⟩
        omega
      rw [bresLoop]
      push_cast
      rw [if_neg hne]
      have hstepeq : bresStep (d : ℤ) 0 1 sy (x2 - ((rem : ℤ) + 1), y, (d : ℤ))
          = (x2 - (rem : ℤ), y, (d : ℤ)) := by
        have hgt : (2 : ℤ) * d > -0 := by positivity
        have hlt : ¬ ((2 : ℤ) * d < d) := by omega
        simp only [bresStep, if_pos hgt, if_neg hlt]
        refine Prod.ext (by ring) (Prod.ext rfl (by ring))
      rw [hstepeq]
      have hih := ih (by omega) f (by omega) x2 y sy
      push_cast at hih
      rw [hih]
      have hlist : (x2 - ((rem : ℤ) + 1), y)
            :: (List.range (rem + 1)).map (fun (k : ℕ) => (x2 - (rem : ℤ) + (k : ℤ), y))
          = (List.range (rem + 1 + 1)).map
            (fun (k : ℕ) => (x2 - ((rem : ℤ) + 1) + (k : ℤ), y)) := by
        conv_rhs => rw [List.range_succ_eq_map, List.map_cons, List.map_map]
        refine List.cons_eq_cons.2 ⟨?_, ?_⟩
        · norm_num
        · refine List.map_congr_left fun k _ => ?_
          simp only [Function.comp_apply]
          refine Prod.ext ?_ rfl
          push_cast
          ring
      exact congrArg some hlist

theorem bresPoints_horiz (x0 x1 y : ℤ) (hlt : x0 < x1) :
    bresPoints x0 y x1 y
      = (List.range ((x1 - x0).toNat + 1)).map fun (k : ℕ) => (x0 + (k : ℤ), y) := by
  have hd0 : (0:ℤ) < x1 - x0 := by omega
  have htn : (((x1 - x0).toNat : ℤ)) = x1 - x0 := Int.toNat_of_nonneg (by omega)
  have habs : |x1 - x0| = x1 - x0 := abs_of_nonneg (by omega)
  have habsy : |y - y| = 0 := by simp
  unfold bresPoints bresRun bresFuel
  dsimp only
  rw [habs, habsy, if_pos hlt, if_neg (lt_irrefl y)]
  have hcall := bresLoop_horiz (x1 - x0).toNat (by omega) (x1 - x0).toNat le_rfl
    ((x1 - x0).toNat + 1) (by omega) x1 y (-1)
  rw [htn] at hcall
  have hx0eq : x1 - (x1 - x0) = x0 := by ring
  rw [hx0eq] at hcall
  have hfuel : (x1 - x0 + 0).toNat + 1 = (x1 - x0).toNat + 1 := by
    rw [add_zero]
  rw [add_zero, sub_zero]
  rw [hcall]
  rfl

theorem combine_dash_dash : combineChars '─' '─' = '─' := by decide

theorem plotDirectional_off_row (w hgt : ℕ) (cv : Canvas) (p : ℤ × ℤ) (y x : ℤ)
    (hy : y ≠ p.2) : plotDirectional w hgt '─' cv p y x = cv y x := by
  unfold plotDirectional
  split
  · rw [writeCell_other]
    rintro ⟨h1, -⟩
    exact hy h1
  · rfl

theorem plotDirectional_clean (w hgt : ℕ) (cv : Canvas) (p : ℤ × ℤ)
    (hp2 : p.2 = (hgt : ℤ)) (hcv : RowClean (hgt : ℤ) cv) :
    RowClean (hgt : ℤ) (plotDirectional w hgt '─' cv p) := by
  intro c
  unfold plotDirectional
  rw [hp2]
  split
  · by_cases hcp : c = p.1
    · subst hcp
      rw [writeCell_same]
      rcases hcv p.1 with hsp | hda
      · rw [hsp, if_pos rfl]
        exact Or.inr rfl
      · rw [hda, if_neg (by decide), combine_dash_dash]
        exact Or.inr rfl
    · rw [writeCell_other]
      · exact hcv c
      · rintro ⟨-, h2⟩
        exact hcp h2
  · exact hcv c

theorem plotDirectional_keep_dash (w hgt : ℕ) (cv : Canvas) (p : ℤ × ℤ) (c : ℤ)
    (hp2 : p.2 = (hgt : ℤ)) (hc : cv (hgt : ℤ) c = '─') :
    plotDirectional w hgt '─' cv p (hgt : ℤ) c = '─' := by
  unfold plotDirectional
  rw [hp2]
  split
  · by_cases hcp : c = p.1
    · subst hcp
      rw [writeCell_same, hc, if_neg (by decide), combine_dash_dash]
    · rw [writeCell_other]
      · exact hc
      · rintro ⟨-, h2⟩
        exact hcp h2
  · exact hc

theorem plotDirectional_covers (w hgt : ℕ) (cv : Canvas) (p : ℤ × ℤ)
    (hp2 : p.2 = (hgt : ℤ)) (hx0 : 0 ≤ p.1) (hxw : p.1 < (w : ℤ))
    (hcv : RowClean (hgt : ℤ) cv) :
    plotDirectional w hgt '─' cv p (hgt : ℤ) p.1 = '─' := by
  unfold plotDirectional
  rw [hp2]
  rw [if_pos ⟨hx0, hxw, Int.natCast_nonneg hgt, by omega⟩]
  rw [writeCell_same]
  rcases hcv p.1 with hsp | hda
  · rw [hsp, if_pos rfl]
  · rw [hda, if_neg (by decide), combine_dash_dash]

theorem foldl_plot_hrule (w hgt : ℕ) :
    ∀ (ps : List (ℤ × ℤ)) (cv : Canvas),
      (∀ p ∈ ps, p.2 = (hgt : ℤ) ∧ 0 ≤ p.1 ∧ p.1 < (w : ℤ)) →
      RowClean (hgt : ℤ) cv →
      (∀ y x : ℤ, y ≠ (hgt : ℤ) →
        ps.foldl (plotDirectional w hgt '─') cv y x = cv y x) ∧
      RowClean (hgt : ℤ) (ps.foldl (plotDirectional w hgt '─') cv) ∧
      (∀ c, cv (hgt : ℤ) c = '─' →
        ps.foldl (plotDirectional w hgt '─') cv (hgt : ℤ) c = '─') ∧
      (∀ p ∈ ps, ps.foldl (plotDirectional w hgt '─') cv (hgt : ℤ) p.1 = '─') := by
  intro ps
  induction ps with
  | nil =>
    intro cv _ hcv
    exact ⟨fun _ _ _ => rfl, hcv, fun _ hc => hc, by simp⟩
  | cons p t ih =>
    intro cv hmem hcv
    obtain ⟨hp2, hp0, hpw⟩ := hmem p (List.mem_cons_self p t)
    have hB := plotDirectional_clean w hgt cv p hp2 hcv
    obtain ⟨ihA, ihB, ihC, ihD⟩ := ih (plotDirectional w hgt '─' cv p)
      (fun q hq => hmem q (List.mem_cons_of_mem _ hq)) hB
    simp only [List.foldl_cons]
    refine ⟨?_, ihB, ?_, ?_⟩
    · intro y x hy
      rw [ihA y x hy]
      exact plotDirectional_off_row w hgt cv p y x (by rw [hp2]; exact hy)
    · intro c hc
      exact ihC c (plotDirectional_keep_dash w hgt cv p c hp2 hc)
    · intro q hq
      rcases List.mem_cons.1 hq with rfl | hq'
      · exact ihC q.1 (plotDirectional_covers w hgt cv q hp2 hp0 hpw hcv)
      · exact ihD q hq'

theorem drawLine_hrule (w hgt : ℕ) (cv : Canvas) (x0 x1 : ℤ)
    (hlt : x0 < x1) (h0 : 0 ≤ x0) (h1 : x1 < (w : ℤ)) (hcv : RowClean (hgt : ℤ) cv) :
    (∀ y x : ℤ, y ≠ (hgt : ℤ) →
      drawLine w hgt cv x0 (hgt : ℤ) x1 (hgt : ℤ) y x = cv y x) ∧
    RowClean (hgt : ℤ) (drawLine w hgt cv x0 (hgt : ℤ) x1 (hgt : ℤ)) ∧
    (∀ c, cv (hgt : ℤ) c = '─' →
      drawLine w hgt cv x0 (hgt : ℤ) x1 (hgt : ℤ) (hgt : ℤ) c = '─') ∧
    (∀ c, x0 ≤ c → c ≤ x1 →
      drawLine w hgt cv x0 (hgt : ℤ) x1 (hgt : ℤ) (hgt : ℤ) c = '─') := by
  have hglyph : segChar |x1 - x0| |(hgt : ℤ) - (hgt : ℤ)| (if x0 < x1 then (1:ℤ) else -1)
      (if (hgt : ℤ) < (hgt : ℤ) then (1:ℤ) else -1) = '─' := by
    rw [sub_self, abs_zero]
    unfold segChar
    rw [if_neg (show ¬ |x1 - x0| = 0 by simp only [abs_eq_zero]; omega), if_pos rfl]
  have hdl : drawLine w hgt cv x0 (hgt : ℤ) x1 (hgt : ℤ)
      = (bresPoints x0 (hgt : ℤ) x1 (hgt : ℤ)).foldl (plotDirectional w hgt '─') cv := by
    unfold drawLine
    dsimp only
    rw [hglyph]
  have hmem : ∀ p ∈ bresPoints x0 (hgt : ℤ) x1 (hgt : ℤ),
      p.2 = (hgt : ℤ) ∧ 0 ≤ p.1 ∧ p.1 < (w : ℤ) := by
    intro p hp
    rw [bresPoints_horiz x0 x1 (hgt : ℤ) hlt] at hp
    obtain ⟨k, hk, rfl⟩ := List.mem_map.1 hp
    rw [List.mem_range] at hk
    have hkle : (k : ℤ) ≤ x1 - x0 := by
      have h1 : k ≤ (x1 - x0).toNat := by omega
      have h2 : ((x1 - x0).toNat : ℤ) = x1 - x0 := Int.toNat_of_nonneg (by omega)
      omega
    exact ⟨rfl, by omega, by omega⟩
  obtain ⟨hA, hB, hC, hD⟩ := foldl_plot_hrule w hgt
    (bresPoints x0 (hgt : ℤ) x1 (hgt : ℤ)) cv hmem hcv
  rw [hdl]
  refine ⟨hA, hB, hC, ?_⟩
  intro c hc0 hc1
  have hcmem : ((c : ℤ), (hgt : ℤ)) ∈ bresPoints x0 (hgt : ℤ) x1 (hgt : ℤ) := by
    rw [bresPoints_horiz x0 x1 (hgt : ℤ) hlt]
    refine List.mem_map.2 ⟨(c - x0).toNat, ?_, ?_⟩
    · rw [List.mem_range]
      have : (c - x0) ≤ x1 - x0 := by omega
      omega
    · rw [Int.toNat_of_nonneg (by omega)]
      refine Prod.ext (by omega) rfl
  have := hD _ hcmem
  exact this

theorem drawSegments_hrule (w hgt : ℕ) (f : ℕ → ℤ)
    (hmono : ∀ i : ℕ, f i < f (i + 1)) :
    ∀ n : ℕ, 2 ≤ n → ∀ (s : ℕ) (cv : Canvas),
      (∀ i : ℕ, s ≤ i → i < s + n → 0 ≤ f i ∧ f i < (w : ℤ)) →
      RowClean (hgt : ℤ) cv →
      (∀ y x : ℤ, y ≠ (hgt : ℤ) →
        drawSegments w hgt cv ((List.range' s n).map fun (i : ℕ) => (f i, (hgt : ℤ))) y x
          = cv y x) ∧
      RowClean (hgt : ℤ)
        (drawSegments w hgt cv ((List.range' s n).map fun (i : ℕ) => (f i, (hgt : ℤ)))) ∧
      (∀ c, cv (hgt : ℤ) c = '─' →
        drawSegments w hgt cv ((List.range' s n).map fun (i : ℕ) => (f i, (hgt : ℤ)))
          (hgt : ℤ) c = '─') ∧
      (∀ c : ℤ, f s ≤ c → c ≤ f (s + n - 1) →
        drawSegments w hgt cv ((List.range' s n).map fun (i : ℕ) => (f i, (hgt : ℤ)))
          (hgt : ℤ) c = '─') := by
  intro n hn
  induction n, hn using Nat.le_induction with
  | base =>
    intro s cv hin hcv
    have hl : (List.range' s 2).map (fun (i : ℕ) => (f i, (hgt : ℤ)))
        = [(f s, (hgt : ℤ)), (f (s + 1), (hgt : ℤ))] := rfl
    rw [hl]
    have hds : drawSegments w hgt cv [(f s, (hgt : ℤ)), (f (s + 1), (hgt : ℤ))]
        = drawLine w hgt cv (f s) (hgt : ℤ) (f (s + 1)) (hgt : ℤ) := rfl
    rw [hds]
    obtain ⟨hs0, hsw⟩ := hin s le_rfl (by omega)
    obtain ⟨h10, h1w⟩ := hin (s + 1) (by omega) (by omega)
    obtain ⟨hA, hB, hC, hD⟩ := drawLine_hrule w hgt cv (f s) (f (s + 1)) (hmono s) hs0 h1w hcv
    refine ⟨hA, hB, hC, ?_⟩
    intro c hc0 hc1
    have hidx : s + 2 - 1 = s + 1 := by omega
    rw [hidx] at hc1
    exact hD c hc0 hc1
  | succ n hn2 ih =>
    intro s cv hin hcv
    have hl : (List.range' s (n + 1)).map (fun (i : ℕ) => (f i, (hgt : ℤ)))
        = (f s, (hgt : ℤ)) :: (List.range' (s + 1) n).map (fun (i : ℕ) => (f i, (hgt : ℤ))) := by
      rw [List.range'_succ, List.map_cons]
    have hl2 : (List.range' (s + 1) n).map (fun (i : ℕ) => (f i, (hgt : ℤ)))
        = (f (s + 1), (hgt : ℤ))
          :: (List.range' (s + 2) (n - 1)).map (fun (i : ℕ) => (f i, (hgt : ℤ))) := by
      conv_lhs => rw [show n = (n - 1) + 1 by omega, List.range'_succ, List.map_cons]
    rw [hl]
    have hstep : drawSegments w hgt cv
          ((f s, (hgt : ℤ)) :: (List.range' (s + 1) n).map (fun (i : ℕ) => (f i, (hgt : ℤ))))
        = drawSegments w hgt (drawLine w hgt cv (f s) (hgt : ℤ) (f (s + 1)) (hgt : ℤ))
            ((List.range' (s + 1) n).map (fun (i : ℕ) => (f i, (hgt : ℤ)))) := by
      rw [hl2]
      rfl
    rw [hstep]
    obtain ⟨hs0, hsw⟩ := hin s le_rfl (by omega)
    obtain ⟨h10, h1w⟩ := hin (s + 1) (by omega) (by omega)
    obtain ⟨dA, dB, dC, dD⟩ := drawLine_hrule w hgt cv (f s) (f (s + 1)) (hmono s) hs0 h1w hcv
    obtain ⟨iA, iB, iC, iD⟩ := ih (s + 1)
      (drawLine w hgt cv (f s) (hgt : ℤ) (f (s + 1)) (hgt : ℤ))
      (fun i hi1 hi2 => hin i (by omega) (by omega)) dB
    refine ⟨?_, iB, ?_, ?_⟩
    · intro y x hy
      rw [iA y x hy]
      exact dA y x hy
    · intro c hc
      exact iC c (dC c hc)
    · intro c hc0 hc1
      rcases le_or_lt c (f (s + 1)) with hle | hgt2
      · exact iC c (dD c hc0 hle)
      · refine iD c (le_of_lt hgt2) ?_
        have hidx : s + 1 + n - 1 = s + (n + 1) - 1 := by omega
        rw [hidx]
        exact hc1

theorem jsRound_zero : jsRound 0 = 0 := by
  unfold jsRound
  rw [zero_add, Int.floor_eq_zero_iff, Set.mem_Ico]
  norm_num

theorem foldl_max_const (c : ℚ) : ∀ m : ℕ, (List.replicate m c).foldl max c = c := by
  intro m
  induction m with
  | zero => rfl
  | succ m ih => rw [List.replicate_succ, List.foldl_cons, max_self]; exact ih

theorem listMax_replicate (n : ℕ) (c : ℚ) (hn : 1 ≤ n) :
    listMax (List.replicate n c) = c := by
  cases n with
  | zero => omega
  | succ m =>
    rw [List.replicate_succ]
    show (List.replicate m c).foldl max c = c
    exact foldl_max_const c m

theorem foldl_min_const (c : ℚ) : ∀ m : ℕ, (List.replicate m c).foldl min c = c := by
  intro m
  induction m with
  | zero => rfl
  | succ m ih => rw [List.replicate_succ, List.foldl_cons, min_self]; exact ih

theorem listMin_replicate (n : ℕ) (c : ℚ) (hn : 1 ≤ n) :
    listMin (List.replicate n c) = c := by
  cases n with
  | zero => omega
  | succ m =>
    rw [List.replicate_succ]
    show (List.replicate m c).foldl min c = c
    exact foldl_min_const c m

theorem drawRange_replicate (n : ℕ) (c : ℚ) (hn : 1 ≤ n) :
    drawRange (List.replicate n c) = 1 := by
  unfold drawRange
  rw [listMax_replicate n c hn, listMin_replicate n c hn, sub_self, if_pos rfl]

theorem getD_replicate (n : ℕ) (c : ℚ) (i : ℕ) (hi : i < n) :
    (List.replicate n c).getD i 0 = c := by
  simp [List.getD, List.getElem?_replicate, hi]

theorem drawPlotPoints_replicate (n : ℕ) (c : ℚ) (w hgt : ℕ) (hn : 1 ≤ n) :
    drawPlotPoints (List.replicate n c) w hgt
      = (List.range n).map fun (i : ℕ) =>
          (jsRound ((i : ℚ) * (((w : ℚ) - 1) / ((n : ℚ) - 1))), (hgt : ℤ)) := by
  unfold drawPlotPoints
  dsimp only
  rw [List.length_replicate]
  refine List.map_congr_left fun i hi => ?_
  rw [List.mem_range] at hi
  rw [getD_replicate n c i hi, listMin_replicate n c hn, drawRange_replicate n c hn]
  have hy : (hgt : ℚ) - (c - c) / 1 * (hgt : ℚ) = ((hgt : ℚ)) := by ring
  rw [hy, jsRound_natCast]

/-- C3 (amended): for every flat series `replicate n c` with `2 ≤ n ≤ width`
and `c ≠ 0`, `drawLineGraph`'s tight-domain policy substitutes `range = 1`
(no division by zero), and the rendered line is a single full-width
horizontal rule of `'─'` sitting on the bottom row (row `height`) of the
canvas, with every other row untouched. -/
theorem c3_flat_series (n : ℕ) (c : ℚ) (w hgt : ℕ)
    (hn : 2 ≤ n) (hc : c ≠ 0) (hnw : n ≤ w) :
    drawRange (List.replicate n c) = 1 ∧
    (∀ x : ℤ, 0 ≤ x → x < (w : ℤ) →
      drawLineGraphCanvas (List.replicate n c) w hgt (hgt : ℤ) x = '─') ∧
    (∀ y x : ℤ, y ≠ (hgt : ℤ) → drawLineGraphCanvas (List.replicate n c) w hgt y x = ' ') := by
  set f : ℕ → ℤ := fun i => jsRound ((i : ℚ) * (((w : ℚ) - 1) / ((n : ℚ) - 1))) with hf
  have hstep1 : (1 : ℚ) ≤ ((w : ℚ) - 1) / ((n : ℚ) - 1) := by
    have hn2 : (2 : ℚ) ≤ (n : ℚ) := by exact_mod_cast hn
    have hw2 : (n : ℚ) ≤ (w : ℚ) := by exact_mod_cast hnw
    rw [one_le_div (by linarith)]
    linarith
  have hmono : ∀ i : ℕ, f i < f (i + 1) := by
    intro i
    have key : f i + 1 ≤ f (i + 1) := by
      rw [hf]
      dsimp only
      have hcast : ((i + 1 : ℕ) : ℚ) = (i : ℚ) + 1 := by push_cast; ring
      rw [hcast, add_one_mul]
      have h2 : jsRound ((i : ℚ) * (((w : ℚ) - 1) / ((n : ℚ) - 1)) + 1)
          ≤ jsRound ((i : ℚ) * (((w : ℚ) - 1) / ((n : ℚ) - 1))
              + ((w : ℚ) - 1) / ((n : ℚ) - 1)) :=
        jsRound_mono (by linarith)
      rw [jsRound_add_one] at h2
      omega
    omega
  have hsm : StrictMono f := strictMono_nat_of_lt_succ hmono
  have hf0 : f 0 = 0 := by
    rw [hf]
    dsimp only
    rw [Nat.cast_zero, zero_mul]
    exact jsRound_zero
  have hlast : f (n - 1) = (w : ℤ) - 1 := by
    rw [hf]
    dsimp only
    have hne : ((n : ℚ) - 1) ≠ 0 := by
      have : (2 : ℚ) ≤ (n : ℚ) := by exact_mod_cast hn
      linarith
    have hcast : ((n - 1 : ℕ) : ℚ) = (n : ℚ) - 1 := by
      rw [Nat.cast_sub (by omega), Nat.cast_one]
    rw [hcast, mul_comm, div_mul_cancel₀ _ hne]
    have hwc : ((w : ℚ) - 1) = (((w : ℤ) - 1 : ℤ) : ℚ) := by push_cast; ring
    rw [hwc, jsRound_intCast]
  have hpts : drawPlotPoints (List.replicate n c) w hgt
      = (List.range' 0 n).map fun (i : ℕ) => (f i, (hgt : ℤ)) := by
    rw [drawPlotPoints_replicate n c w hgt (by omega), List.range_eq_range']
  have hin : ∀ i : ℕ, 0 ≤ i → i < 0 + n → 0 ≤ f i ∧ f i < (w : ℤ) := by
    intro i _ hi
    constructor
    · rw [← hf0]
      exact hsm.monotone (by omega)
    · have hle : f i ≤ f (n - 1) := hsm.monotone (by omega)
      omega
  obtain ⟨hA, hB, hC, hD⟩ := drawSegments_hrule w hgt f hmono n hn 0 blankCanvas hin
    (fun _ => Or.inl rfl)
  have hcveq : drawLineGraphCanvas (List.replicate n c) w hgt
      = drawSegments w hgt blankCanvas
          ((List.range' 0 n).map fun (i : ℕ) => (f i, (hgt : ℤ))) := by
    unfold drawLineGraphCanvas
    rw [hpts]
  refine ⟨drawRange_replicate n c (by omega), ?_, ?_⟩
  · intro x hx0 hxw
    rw [hcveq]
    refine hD x ?_ ?_
    · rw [hf0]
      exact hx0
    · have hidx : 0 + n - 1 = n - 1 := by omega
      rw [hidx, hlast]
      omega
  · intro y x hy
    rw [hcveq, hA y x hy]
    rfl

/-- Witness for C3 at the concrete flat series `[1, 1]`, `width = 2`,
`height = 1`: the bottom-left canvas cell holds the rule glyph. -/
theorem c3_witness :
    drawLineGraphCanvas (List.replicate 2 (1 : ℚ)) 2 1 ((1 : ℕ) : ℤ) 0 = '─' :=
  (c3_flat_series 2 1 2 1 (by decide) (by decide) (by decide)).2.1 0 (by decide) (by decide)

/-- C3 counterexample: the flat series `[5, 5, 5]` with `width = 2`,
`height = 2` refutes the claim as stated twice over: the midpoint row (row 1)
stays blank — the rule is drawn on the bottom row instead — and with more
points than columns the bottom row is not purely `'─'` (a degenerate
zero-length segment writes `'│'`, which merges to `'┼'`). -/
theorem c3_counterexample :
    drawLineGraphCanvas [5, 5, 5] 2 2 1 0 = ' ' ∧
    drawLineGraphCanvas [5, 5, 5] 2 2 1 1 = ' ' ∧
    drawLineGraphCanvas [5, 5, 5] 2 2 2 1 = '┼' := by
  with_unfolding_all decide

end CCUsage
